import Mathlib

/-!
Shallow embedding of the RocksDB `RangeDelAggregator` (db/range_del_aggregator.h).
The repository provides only the declaration header; the operational behaviour of
every member is modelled from the specification document, as recorded on each
definition's doc comment.

User keys are an arbitrary linearly ordered type `K` (the key comparator is an
external collaborator supplying a total order).  Sequence numbers are naturals.
Ordered `std::map` containers are modelled as sorted association lists.
-/

namespace RangeDel

abbrev SequenceNumber := Nat

/-- Tombstone record: half-open user-key interval `[start_key, end_key)` stamped
with the sequence number at which the deletion was written. -/
structure RangeTombstone (K : Type) where
  start_key : K
  end_key : K
  seq : SequenceNumber
deriving DecidableEq

/-- Per-stripe tombstone index: ordered map from tombstone internal start key to
the tombstone object (`std::map<Slice, RangeTombstone>`), as a sorted
association list. -/
abbrev TombstoneMap (K : Type) := List (K × RangeTombstone K)

variable {K : Type} [LinearOrder K]

/-- Modelled from the spec: ordered-map insertion keyed by start key, with the
at-most-one-entry-per-start-key rule of the data model (an insertion whose
start key collides exactly with an existing entry in the same stripe does not
create a second entry; the existing entry is kept). -/
def tombMapInsert (m : TombstoneMap K) (t : RangeTombstone K) : TombstoneMap K :=
  match m with
  | [] => [(t.start_key, t)]
  | (k, u) :: rest =>
    if t.start_key < k then (t.start_key, t) :: (k, u) :: rest
    else if t.start_key = k then (k, u) :: rest
    else (k, u) :: tombMapInsert rest t

/-- Modelled from the spec: insertion of a snapshot boundary into the ordered
set of stripe boundaries (ordered-map key insertion: sorted, duplicate
boundaries collapse). -/
def insertBound (x : SequenceNumber) : List SequenceNumber → List SequenceNumber
  | [] => [x]
  | y :: ys =>
    if x < y then x :: y :: ys
    else if x = y then y :: ys
    else y :: insertBound x ys

/-- Modelled from the spec: the stripe boundaries derived once from the
caller-supplied snapshot list (an ordered collection keyed by snapshot
sequence number). -/
def mkBoundaries (snapshots : List SequenceNumber) : List SequenceNumber :=
  snapshots.foldl (fun acc s => insertBound s acc) []

/-- Stripe table: ordered collection mapping each stripe's upper sequence-number
bound to its per-stripe tombstone index, plus the unbounded newest stripe
`(max_snapshot, +infinity)` (`kMaxSequenceNumber` entry of the source's
`StripeMap`). -/
structure StripeMap (K : Type) where
  snapStripes : List (SequenceNumber × TombstoneMap K)
  topStripe : TombstoneMap K
deriving DecidableEq

/-- The finite stripe boundaries of a stripe table, ascending. -/
def StripeMap.bounds (sm : StripeMap K) : List SequenceNumber :=
  sm.snapStripes.map (·.1)

/-- Modelled from the spec: stripe resolution — the first stripe boundary
greater than or equal to `seq` in the ordered stripe table; `none` designates
the unbounded newest stripe. -/
def resolveBoundary (bounds : List SequenceNumber) (seq : SequenceNumber) :
    Option SequenceNumber :=
  bounds.find? (fun b => decide (seq ≤ b))

/-- The per-stripe index stored under a stripe identifier (`none` = the
unbounded newest stripe). -/
def StripeMap.getStripe (sm : StripeMap K) : Option SequenceNumber → TombstoneMap K
  | none => sm.topStripe
  | some s => ((sm.snapStripes.find? (fun e => decide (e.1 = s))).map (·.2)).getD []

/-- Pointwise update of the per-stripe index stored under a stripe
identifier. -/
def StripeMap.updateStripe (sm : StripeMap K) (b : Option SequenceNumber)
    (f : TombstoneMap K → TombstoneMap K) : StripeMap K :=
  match b with
  | none => { sm with topStripe := f sm.topStripe }
  | some s =>
      { sm with
        snapStripes := sm.snapStripes.map (fun e => if e.1 = s then (e.1, f e.2) else e) }

/-- All per-stripe indexes, oldest stripe first, the unbounded newest stripe
last. -/
def StripeMap.stripes (sm : StripeMap K) : List (TombstoneMap K) :=
  sm.snapStripes.map (·.2) ++ [sm.topStripe]

/-- Modelled from the spec: materialization of the stripe table from a snapshot
list — one empty per-stripe index per distinct snapshot boundary plus the
empty unbounded newest stripe (the source's `InitRep`). -/
def initStripeMap (K : Type) (snapshots : List SequenceNumber) : StripeMap K :=
  { snapStripes := (mkBoundaries snapshots).map (fun b => (b, [])), topStripe := [] }

/-- Aggregator state: the snapshot set supplied at construction and an optional
stripe table (`none` = uninitialized, the lazily deferred `rep_`). -/
structure RangeDelAggregator (K : Type) where
  snapshots : List SequenceNumber
  rep : Option (StripeMap K)
deriving DecidableEq

/-- Modelled from the spec: the multi-snapshot constructor, which does not
lazily initialize the representation. -/
def RangeDelAggregator.ofSnapshots (K : Type) (snapshots : List SequenceNumber) :
    RangeDelAggregator K :=
  { snapshots := snapshots, rep := some (initStripeMap K snapshots) }

/-- Modelled from the spec: the single-upper-bound constructor, which stores the
bound and defers initialization until the first range deletion is
encountered. -/
def RangeDelAggregator.ofUpperBound (K : Type) (upper_bound : SequenceNumber) :
    RangeDelAggregator K :=
  { snapshots := [upper_bound], rep := none }

/-- The stripe table, materialized on first use if still uninitialized. -/
def RangeDelAggregator.ensureInit (a : RangeDelAggregator K) : StripeMap K :=
  a.rep.getD (initStripeMap K a.snapshots)

/-- Modelled from the spec: ingestion of a single decoded tombstone — resolve
the stripe containing the tombstone's own sequence number and insert the
tombstone into that stripe's index keyed by start key (initializing the
representation first if needed). -/
def RangeDelAggregator.addTombstone (a : RangeDelAggregator K) (t : RangeTombstone K) :
    RangeDelAggregator K :=
  let sm := a.ensureInit
  { a with rep := some (sm.updateStripe (resolveBoundary sm.bounds t.seq) (fun m => tombMapInsert m t)) }

/-- Ingestion of a whole stream of already-decoded tombstones, in order. -/
def RangeDelAggregator.addParsedTombstones (a : RangeDelAggregator K)
    (ts : List (RangeTombstone K)) : RangeDelAggregator K :=
  ts.foldl RangeDelAggregator.addTombstone a

/-- Modelled from the spec: coverage evaluation on a parsed key — resolve the
stripe containing the query key's sequence number and scan that stripe's index
for a tombstone with `start_key <= user_key < end_key` whose own sequence
number is strictly greater than the query key's. -/
def RangeDelAggregator.shouldDeleteParsed (a : RangeDelAggregator K) (user_key : K)
    (seq : SequenceNumber) : Bool :=
  match a.rep with
  | none => false
  | some sm =>
    (sm.getStripe (resolveBoundary sm.bounds seq)).any
      (fun e =>
        decide (e.2.start_key ≤ user_key) && decide (user_key < e.2.end_key) &&
          decide (seq < e.2.seq))

/-- Modelled from the spec: whether any stripe holds tombstones that are
candidates for emission; when `bottommost_level` is true the oldest stripe
(smallest upper bound) is excluded from consideration. -/
def RangeDelAggregator.shouldAddTombstones (a : RangeDelAggregator K)
    (bottommost_level : Bool) : Bool :=
  match a.rep with
  | none => false
  | some sm =>
    ((if bottommost_level then sm.stripes.drop 1 else sm.stripes).any
      (fun m => !m.isEmpty))

/-- Modelled from the spec: true iff every stripe's index is empty or the
aggregator was never initialized. -/
def RangeDelAggregator.isEmpty (a : RangeDelAggregator K) : Bool :=
  match a.rep with
  | none => true
  | some sm => sm.stripes.all (fun m => m.isEmpty)

/-- All tombstones currently held by the aggregator, in stripe order. -/
def RangeDelAggregator.tombstones (a : RangeDelAggregator K) : List (RangeTombstone K) :=
  match a.rep with
  | none => []
  | some sm => (sm.stripes.map (List.map (·.2))).flatten

/-- The stripe boundaries the aggregator's snapshot set determines. -/
def RangeDelAggregator.bounds (a : RangeDelAggregator K) : List SequenceNumber :=
  mkBoundaries a.snapshots

/-- All per-stripe indexes of the aggregator (empty when uninitialized). -/
def RangeDelAggregator.stripesOf (a : RangeDelAggregator K) : List (TombstoneMap K) :=
  match a.rep with
  | none => []
  | some sm => sm.stripes

/-- Strict sortedness of a per-stripe index by start key (computable
pairwise check). -/
def keysSorted : TombstoneMap K → Bool
  | [] => true
  | p :: rest => rest.all (fun q => decide (p.1 < q.1)) && keysSorted rest

/-- Well-formedness of one per-stripe index relative to its stripe identifier:
strictly sorted by start key, every entry keyed by its tombstone's start key,
and every held tombstone's own sequence number resolves to this stripe. -/
def stripeOK (bounds : List SequenceNumber) (b : Option SequenceNumber)
    (m : TombstoneMap K) : Bool :=
  keysSorted m &&
    m.all (fun p => decide (p.1 = p.2.start_key) && decide (resolveBoundary bounds p.2.seq = b))

/-- Well-formedness of a whole stripe table relative to a snapshot set: its
boundaries are exactly those derived from the snapshot set and every stripe is
well formed relative to its identifier. -/
def stripeMapOK (snapshots : List SequenceNumber) (sm : StripeMap K) : Bool :=
  decide (sm.bounds = mkBoundaries snapshots) &&
    sm.snapStripes.all (fun e => stripeOK sm.bounds (some e.1) e.2) &&
    stripeOK sm.bounds none sm.topStripe

/-- Structural invariant of the aggregator: if initialized, the stripe table is
well formed relative to the snapshot set supplied at construction. -/
def RangeDelAggregator.wf (a : RangeDelAggregator K) : Bool :=
  a.rep.all (stripeMapOK a.snapshots)

/-- Declarative stripe-interval membership: a stripe with finite upper bound `s`
holds the sequence numbers in `(prev, s]` (upper-bound inclusive, lower-bound
exclusive, `prev` the next smaller boundary); the unbounded newest stripe
(identifier `none`) holds everything above every finite boundary. -/
def stripeIntervalMem (bounds : List SequenceNumber) (b : Option SequenceNumber)
    (seq : SequenceNumber) : Prop :=
  match b with
  | some s => s ∈ bounds ∧ seq ≤ s ∧ ∀ p ∈ bounds, p < s → p < seq
  | none => ∀ p ∈ bounds, p < seq

/-- The identifier of the oldest stripe: the smallest finite boundary, or the
unbounded stripe when no finite boundary exists. -/
def RangeDelAggregator.oldestStripeId (a : RangeDelAggregator K) : Option SequenceNumber :=
  match a.bounds with
  | [] => none
  | b :: _ => some b

/-- Raw byte strings, the payload of `Slice` keys handed to the encoded-key
entry points. -/
abbrev ByteKey := List Nat

/-- Modelled from the spec: the sequence number packed into the eight footer
bytes of a combined internal key (the key-encoding module is not part of the
provided sources; bytes are read little-endian). -/
def decodeSeqBytes (bs : List Nat) : SequenceNumber :=
  bs.foldr (fun b acc => acc * 256 + b % 256) 0

/-- Modelled from the spec: decoding of an encoded combined key into
`(user_key, sequence)` — the key-encoding module is not part of the provided
sources; a combined key carries the user key followed by an eight-byte footer
holding the sequence number, and decoding fails exactly when the footer is
missing. -/
def parseInternalKey (internal_key : ByteKey) : Option (ByteKey × SequenceNumber) :=
  if internal_key.length < 8 then none
  else
    some (internal_key.take (internal_key.length - 8),
      decodeSeqBytes (internal_key.drop (internal_key.length - 8)))

/-- A raw tombstone record produced by the input iterator: an encoded combined
key holding the start key and write sequence, and a value holding the end
key. -/
structure RawRecord where
  key : ByteKey
  value : ByteKey
deriving DecidableEq

/-- Outcome of ingestion, the source's `Status`. -/
inductive Status where
  | ok : Status
  | corruption : Status
deriving DecidableEq

/-- Decoding of one raw record into a tombstone. -/
def decodeRecord (r : RawRecord) : Option (RangeTombstone ByteKey) :=
  (parseInternalKey r.key).map (fun p => ⟨p.1, r.value, p.2⟩)

/-- Modelled from the spec: eager ingestion of the whole input sequence of raw
tombstone records, in order — each record is decoded (Corruption on a
malformed combined key), its stripe resolved by its own sequence number and
the tombstone inserted there; ingestion stops at the first decode error with
no rollback of earlier insertions. -/
def RangeDelAggregator.addTombstones (a : RangeDelAggregator ByteKey) :
    List RawRecord → Status × RangeDelAggregator ByteKey
  | [] => (Status.ok, a)
  | r :: rest =>
    match decodeRecord r with
    | none => (Status.corruption, a)
    | some t => (a.addTombstone t).addTombstones rest

/-- Error condition of the encoded-key coverage query. -/
inductive CoverageError where
  | malformedKey : CoverageError
deriving DecidableEq

/-- Modelled from the spec: the encoded-key coverage overload — decode the
combined key (MalformedKey condition on failure), then resolve the stripe of
the decoded sequence number and scan that stripe's index for a covering
tombstone that is strictly newer than the query key. -/
def RangeDelAggregator.shouldDelete (a : RangeDelAggregator ByteKey)
    (internal_key : ByteKey) : Except CoverageError Bool :=
  if internal_key.length < 8 then Except.error CoverageError.malformedKey
  else
    let user_key := internal_key.take (internal_key.length - 8)
    let seq := decodeSeqBytes (internal_key.drop (internal_key.length - 8))
    Except.ok
      (match a.rep with
      | none => false
      | some sm =>
        (sm.getStripe (resolveBoundary sm.bounds seq)).any
          (fun e =>
            decide (e.2.start_key ≤ user_key) && decide (user_key < e.2.end_key) &&
              decide (seq < e.2.seq)))

/-- Output file bounds record, the `smallest`/`largest` pair of the file's
metadata (unset on a fresh output file). -/
structure FileMetaData (K : Type) where
  smallest : Option K
  largest : Option K
deriving DecidableEq

/-- Widening of an optional lower file bound to include one more key. -/
def widenLow : Option K → K → K
  | none, x => x
  | some s, x => min s x

/-- Widening of an optional upper file bound to include one more key. -/
def widenHigh : Option K → K → K
  | none, x => x
  | some s, x => max s x

/-- Clipping of a tombstone's start key by the target range's lower bound
(`none` = unbounded to the left). -/
def clipLow (lower_bound : Option K) (s : K) : K :=
  match lower_bound with
  | none => s
  | some l => max l s

/-- Clipping of a tombstone's end key by the target range's upper bound
(`none` = unbounded to the right). -/
def clipHigh (upper_bound : Option K) (e : K) : K :=
  match upper_bound with
  | none => e
  | some u => min u e

/-- Modelled from the spec: the emission test — a tombstone is written iff its
interval `[start_key, end_key)` overlaps the target range
`[lower_bound, upper_bound)` (`none` = unbounded). -/
def overlapsTarget (lower_bound upper_bound : Option K) (t : RangeTombstone K) : Bool :=
  (match upper_bound with | none => true | some u => decide (t.start_key < u)) &&
    (match lower_bound with | none => true | some l => decide (l < t.end_key))

/-- Modelled from the spec: emission of a single tombstone against the target
range `[lower_bound, upper_bound)` (`none` = unbounded): the tombstone is
written iff its interval intersects the target range, the written interval is
clipped to the intersection, and the file bounds widen to include the clipped
endpoints — the smallest-bound candidate being the original start key when
`extend_before_min_key` is set, otherwise the clipped start key further
clipped by the file's current smallest. -/
def addTombstoneToBuilder (lower_bound upper_bound : Option K)
    (extend_before_min_key : Bool) (meta : FileMetaData K) (t : RangeTombstone K) :
    Option (K × K) × FileMetaData K :=
  if overlapsTarget lower_bound upper_bound t then
    (some (clipLow lower_bound t.start_key, clipHigh upper_bound t.end_key),
      { smallest :=
          some (widenLow meta.smallest
            (if extend_before_min_key then t.start_key
             else widenHigh meta.smallest (clipLow lower_bound t.start_key))),
        largest := some (widenHigh meta.largest (clipHigh upper_bound t.end_key)) })
  else (none, meta)

/-- Modelled from the spec: emission of the whole aggregation into an output
sink — every stripe not excluded by `bottommost_level` is traversed and each
tombstone run through the single-tombstone emission step, accumulating the
written intervals and threading the file bounds. -/
def RangeDelAggregator.addToBuilder (a : RangeDelAggregator K)
    (lower_bound upper_bound : Option K) (extend_before_min_key : Bool)
    (meta : FileMetaData K) (bottommost_level : Bool) :
    List (K × K) × FileMetaData K :=
  match a.rep with
  | none => ([], meta)
  | some sm =>
    (if bottommost_level then sm.stripes.drop 1 else sm.stripes).foldl
      (fun acc m =>
        m.foldl
          (fun acc2 p =>
            match addTombstoneToBuilder lower_bound upper_bound extend_before_min_key acc2.2 p.2 with
            | (none, meta2) => (acc2.1, meta2)
            | (some iv, meta2) => (acc2.1 ++ [iv], meta2))
          acc)
      ([], meta)

/-- Membership of a user key in the target range `[lower_bound, upper_bound)`
(`none` = unbounded in that direction). -/
def inTarget (lower_bound upper_bound : Option K) (x : K) : Prop :=
  (∀ l ∈ lower_bound, l ≤ x) ∧ (∀ u ∈ upper_bound, x < u)

/-- The per-stripe index the aggregator holds (materializing lazily, as
ingestion would) for the stripe containing `seq`. -/
def RangeDelAggregator.resolvedStripe (a : RangeDelAggregator K) (seq : SequenceNumber) :
    TombstoneMap K :=
  a.ensureInit.getStripe (resolveBoundary a.ensureInit.bounds seq)

theorem mem_insertBound {x y : SequenceNumber} {l : List SequenceNumber} :
    y ∈ insertBound x l ↔ y = x ∨ y ∈ l := by
  induction l with
  | nil => simp [insertBound]
  | cons z zs ih =>
    by_cases h1 : x < z
    · simp [insertBound, h1]
    · by_cases h2 : x = z
      · simp only [insertBound, if_neg h1, if_pos h2, List.mem_cons]
        subst h2
        tauto
      · simp only [insertBound, if_neg h1, if_neg h2, List.mem_cons, ih]
        tauto

theorem sorted_insertBound {x : SequenceNumber} {l : List SequenceNumber}
    (h : l.Pairwise (· < ·)) : (insertBound x l).Pairwise (· < ·) := by
  induction l with
  | nil => simp [insertBound]
  | cons z zs ih =>
    rw [List.pairwise_cons] at h
    obtain ⟨hz, hzs⟩ := h
    by_cases h1 : x < z
    · simp only [insertBound, if_pos h1]
      refine List.Pairwise.cons ?_ (List.Pairwise.cons hz hzs)
      intro b hb
      rcases List.mem_cons.1 hb with rfl | hb
      · exact h1
      · exact h1.trans (hz b hb)
    · by_cases h2 : x = z
      · simp only [insertBound, if_neg h1, if_pos h2]
        exact List.Pairwise.cons hz hzs
      · simp only [insertBound, if_neg h1, if_neg h2]
        refine List.Pairwise.cons ?_ (ih hzs)
        intro b hb
        rcases mem_insertBound.1 hb with rfl | hb
        · exact Nat.lt_of_le_of_ne (Nat.le_of_not_lt h1) (fun he => h2 he.symm)
        · exact hz b hb

theorem mkBoundaries_sorted (snapshots : List SequenceNumber) :
    (mkBoundaries snapshots).Pairwise (· < ·) := by
  have hgen : ∀ (s acc : List SequenceNumber), acc.Pairwise (· < ·) →
      (s.foldl (fun acc s => insertBound s acc) acc).Pairwise (· < ·) := by
    intro s
    induction s with
    | nil => intro acc h; simpa using h
    | cons z zs ih => intro acc h; exact ih _ (sorted_insertBound h)
  exact hgen snapshots [] (by simp)

theorem resolveBoundary_eq_none {bounds : List SequenceNumber} {seq : SequenceNumber} :
    resolveBoundary bounds seq = none ↔ ∀ b ∈ bounds, b < seq := by
  simp [resolveBoundary, List.find?_eq_none, Nat.not_le]

theorem resolveBoundary_some {bounds : List SequenceNumber} {seq b : SequenceNumber}
    (h : resolveBoundary bounds seq = some b) : b ∈ bounds ∧ seq ≤ b := by
  refine ⟨List.mem_of_find?_eq_some h, ?_⟩
  simpa using List.find?_some h

theorem resolveBoundary_first {bounds : List SequenceNumber}
    (hs : bounds.Pairwise (· < ·)) {seq b : SequenceNumber}
    (h : resolveBoundary bounds seq = some b) :
    ∀ p ∈ bounds, p < b → p < seq := by
  induction bounds with
  | nil => simp [resolveBoundary] at h
  | cons z zs ih =>
    rw [List.pairwise_cons] at hs
    by_cases hz : seq ≤ z
    · rw [resolveBoundary, List.find?_cons_of_pos _ (by simpa using hz)] at h
      obtain rfl : z = b := by simpa using h
      intro p hp hpb
      rcases List.mem_cons.1 hp with rfl | hp
      · exact absurd hpb (lt_irrefl _)
      · exact absurd hpb (Nat.lt_asymm (hs.1 p hp))
    · rw [resolveBoundary, List.find?_cons_of_neg _ (by simpa using hz)] at h
      intro p hp hpb
      rcases List.mem_cons.1 hp with rfl | hp
      · exact Nat.not_le.1 hz
      · exact ih hs.2 h p hp hpb

/-- C2: for an aggregator built from a snapshot list or from a single upper
bound, the snapshot stripes partition the sequence-number space: every
sequence number lies in exactly one stripe's interval (upper-bound inclusive,
lower-bound exclusive), and stripe resolution selects the stripe whose upper
bound is the first boundary greater than or equal to the sequence number. -/
theorem stripe_partition (a : RangeDelAggregator K) (seq : SequenceNumber) :
    stripeIntervalMem a.bounds (resolveBoundary a.bounds seq) seq ∧
    ∀ b, stripeIntervalMem a.bounds b seq → b = resolveBoundary a.bounds seq := by
  have hs : a.bounds.Pairwise (· < ·) := mkBoundaries_sorted _
  constructor
  · cases hr : resolveBoundary a.bounds seq with
    | none => simpa [stripeIntervalMem] using resolveBoundary_eq_none.1 hr
    | some s =>
      obtain ⟨hmem, hle⟩ := resolveBoundary_some hr
      exact ⟨hmem, hle, resolveBoundary_first hs hr⟩
  · intro b hb
    cases hr : resolveBoundary a.bounds seq with
    | none =>
      have hall := resolveBoundary_eq_none.1 hr
      cases b with
      | none => rfl
      | some s =>
        obtain ⟨hmem, hle, _⟩ := hb
        exact absurd hle (Nat.not_le.2 (hall s hmem))
    | some s' =>
      obtain ⟨hmem', hle'⟩ := resolveBoundary_some hr
      have hfirst := resolveBoundary_first hs hr
      cases b with
      | none => exact absurd hle' (Nat.not_le.2 (hb s' hmem'))
      | some s =>
        obtain ⟨hmem, hle, hmax⟩ := hb
        rcases lt_trichotomy s s' with hlt | heq | hgt
        · exact absurd hle (Nat.not_le.2 (hfirst s hmem hlt))
        · rw [heq]
        · exact absurd hle' (Nat.not_le.2 (hmax s' hmem' hgt))

theorem tombMapInsert_ne_nil (m : TombstoneMap K) (t : RangeTombstone K) :
    tombMapInsert m t ≠ [] := by
  cases m with
  | nil => simp [tombMapInsert]
  | cons q rest =>
    obtain ⟨k, u⟩ := q
    by_cases h1 : t.start_key < k
    · simp [tombMapInsert, h1]
    · by_cases h2 : t.start_key = k
      · simp [tombMapInsert, h1, h2]
      · simp [tombMapInsert, h1, h2]

theorem mem_of_mem_tombMapInsert {m : TombstoneMap K} {t : RangeTombstone K}
    {p : K × RangeTombstone K} (h : p ∈ tombMapInsert m t) :
    p = (t.start_key, t) ∨ p ∈ m := by
  induction m with
  | nil => simpa [tombMapInsert] using h
  | cons q rest ih =>
    obtain ⟨k, u⟩ := q
    by_cases h1 : t.start_key < k
    · simp only [tombMapInsert, if_pos h1, List.mem_cons] at h
      simp only [List.mem_cons]
      tauto
    · by_cases h2 : t.start_key = k
      · simp only [tombMapInsert, if_neg h1, if_pos h2] at h
        tauto
      · simp only [tombMapInsert, if_neg h1, if_neg h2, List.mem_cons] at h
        simp only [List.mem_cons]
        rcases h with rfl | h
        · tauto
        · rcases ih h with h | h <;> tauto

theorem mem_tombMapInsert_of_mem {m : TombstoneMap K} {t : RangeTombstone K}
    {p : K × RangeTombstone K} (h : p ∈ m) : p ∈ tombMapInsert m t := by
  induction m with
  | nil => simp at h
  | cons q rest ih =>
    obtain ⟨k, u⟩ := q
    by_cases h1 : t.start_key < k
    · simp only [tombMapInsert, if_pos h1, List.mem_cons]
      rcases List.mem_cons.1 h with rfl | h <;> tauto
    · by_cases h2 : t.start_key = k
      · simpa [tombMapInsert, h1, h2] using h
      · simp only [tombMapInsert, if_neg h1, if_neg h2, List.mem_cons]
        rcases List.mem_cons.1 h with rfl | h
        · left; rfl
        · right; exact ih h

theorem keysSorted_iff {m : TombstoneMap K} :
    keysSorted m = true ↔ m.Pairwise (fun p q => p.1 < q.1) := by
  induction m with
  | nil => simp [keysSorted]
  | cons p rest ih =>
    simp [keysSorted, List.all_eq_true, List.pairwise_cons, Bool.and_eq_true,
      decide_eq_true_eq, ih]

theorem pairwise_tombMapInsert {m : TombstoneMap K} {t : RangeTombstone K}
    (h : m.Pairwise (fun p q => p.1 < q.1)) :
    (tombMapInsert m t).Pairwise (fun p q => p.1 < q.1) := by
  induction m with
  | nil => simp [tombMapInsert]
  | cons q rest ih =>
    obtain ⟨hk, hrest⟩ := List.pairwise_cons.1 h
    by_cases h1 : t.start_key < q.1
    · have hq : tombMapInsert (q :: rest) t = (t.start_key, t) :: q :: rest := by
        obtain ⟨k, u⟩ := q
        simp only [tombMapInsert, if_pos h1]
      rw [hq]
      refine List.Pairwise.cons ?_ (List.Pairwise.cons hk hrest)
      intro p hp
      rcases List.mem_cons.1 hp with rfl | hp
      · exact h1
      · exact h1.trans (hk p hp)
    · by_cases h2 : t.start_key = q.1
      · have hq : tombMapInsert (q :: rest) t = q :: rest := by
          obtain ⟨k, u⟩ := q
          simp only [tombMapInsert, if_neg h1, if_pos h2]
        rw [hq]
        exact List.Pairwise.cons hk hrest
      · have hq : tombMapInsert (q :: rest) t = q :: tombMapInsert rest t := by
          obtain ⟨k, u⟩ := q
          simp only [tombMapInsert, if_neg h1, if_neg h2]
        rw [hq]
        refine List.Pairwise.cons ?_ (ih hrest)
        intro p hp
        rcases mem_of_mem_tombMapInsert hp with rfl | hp
        · exact lt_of_le_of_ne (le_of_not_lt h1) (fun he => h2 he.symm)
        · exact hk p hp

theorem tombMapInsert_of_mem_key {m : TombstoneMap K} {t : RangeTombstone K}
    (hs : m.Pairwise (fun p q => p.1 < q.1)) (h : t.start_key ∈ m.map (·.1)) :
    tombMapInsert m t = m := by
  induction m with
  | nil => simp at h
  | cons q rest ih =>
    obtain ⟨hk, hrest⟩ := List.pairwise_cons.1 hs
    simp only [List.map_cons, List.mem_cons] at h
    by_cases h2 : t.start_key = q.1
    · have h1 : ¬t.start_key < q.1 := by rw [h2]; exact lt_irrefl _
      obtain ⟨k, u⟩ := q
      simp only [tombMapInsert, if_neg h1, if_pos h2]
    · have hmem : t.start_key ∈ rest.map (·.1) := by
        rcases h with h | h
        · exact absurd h h2
        · exact h
      have hklt : q.1 < t.start_key := by
        obtain ⟨p, hp, hpk⟩ := List.mem_map.1 hmem
        exact hpk ▸ hk p hp
      have h1 : ¬t.start_key < q.1 := lt_asymm hklt
      have hrec := ih hrest hmem
      obtain ⟨k, u⟩ := q
      simp only [tombMapInsert, if_neg h1, if_neg h2]
      rw [hrec]

theorem find?_key_eq_some_self {l : List (SequenceNumber × TombstoneMap K)}
    {e : SequenceNumber × TombstoneMap K} (hnd : (l.map (·.1)).Nodup) (he : e ∈ l) :
    l.find? (fun x => decide (x.1 = e.1)) = some e := by
  induction l with
  | nil => simp at he
  | cons q rest ih =>
    simp only [List.map_cons, List.nodup_cons] at hnd
    rcases List.mem_cons.1 he with rfl | he
    · exact List.find?_cons_of_pos _ (by simp)
    · have hne : ¬q.1 = e.1 := by
        intro hq
        apply hnd.1
        rw [hq]
        exact List.mem_map.2 ⟨e, he, rfl⟩
      rw [List.find?_cons_of_neg _ (by simpa using hne)]
      exact ih hnd.2 he

theorem bounds_updateStripe (sm : StripeMap K) (b : Option SequenceNumber)
    (f : TombstoneMap K → TombstoneMap K) :
    (sm.updateStripe b f).bounds = sm.bounds := by
  cases b with
  | none => rfl
  | some s =>
    simp only [StripeMap.updateStripe, StripeMap.bounds, List.map_map]
    apply List.map_congr_left
    intro e he
    by_cases h : e.1 = s <;> simp [h]

theorem getStripe_updateStripe_some (sm : StripeMap K)
    (f : TombstoneMap K → TombstoneMap K) {s : SequenceNumber}
    (hnd : (sm.snapStripes.map (·.1)).Nodup) {e : SequenceNumber × TombstoneMap K}
    (he : e ∈ sm.snapStripes) (hes : e.1 = s) :
    (sm.updateStripe (some s) f).getStripe (some s) = f (sm.getStripe (some s)) := by
  have hfind := find?_key_eq_some_self hnd he
  rw [hes] at hfind
  have hupd : ((fun x : SequenceNumber × TombstoneMap K => decide (x.1 = s)) ∘
      (fun x => if x.1 = s then (x.1, f x.2) else x)) =
        (fun x : SequenceNumber × TombstoneMap K => decide (x.1 = s)) := by
    funext x
    by_cases h : x.1 = s <;> simp [h]
  simp only [StripeMap.updateStripe, StripeMap.getStripe, List.find?_map]
  rw [hupd, hfind]
  simp [hes]

theorem getStripe_updateStripe_ne (sm : StripeMap K)
    (f : TombstoneMap K → TombstoneMap K) {b b' : Option SequenceNumber}
    (h : b' ≠ b) : (sm.updateStripe b f).getStripe b' = sm.getStripe b' := by
  cases b with
  | none =>
    cases b' with
    | none => exact absurd rfl h
    | some s' => rfl
  | some s =>
    cases b' with
    | none => rfl
    | some s' =>
      have hne : s' ≠ s := fun he => h (by rw [he])
      have hupd : ((fun x : SequenceNumber × TombstoneMap K => decide (x.1 = s')) ∘
          (fun x => if x.1 = s then (x.1, f x.2) else x)) =
            (fun x : SequenceNumber × TombstoneMap K => decide (x.1 = s')) := by
        funext x
        by_cases hx : x.1 = s <;> simp [hx]
      simp only [StripeMap.updateStripe, StripeMap.getStripe, List.find?_map]
      rw [hupd]
      cases hf : sm.snapStripes.find? (fun x => decide (x.1 = s')) with
      | none => rfl
      | some en =>
        have hen : en.1 = s' := by simpa using List.find?_some hf
        simp [hen, hne]

theorem countP_key_eq_one {m : TombstoneMap K} {k : K}
    (hnd : (m.map (·.1)).Nodup) (hm : k ∈ m.map (·.1)) :
    m.countP (fun p => decide (p.1 = k)) = 1 := by
  induction m with
  | nil => simp at hm
  | cons p rest ih =>
    simp only [List.map_cons, List.nodup_cons] at hnd
    rcases List.mem_cons.1 (by simpa only [List.map_cons] using hm :
        k ∈ p.1 :: rest.map (·.1)) with heq | hmem
    · have h0 : rest.countP (fun q => decide (q.1 = k)) = 0 := by
        rw [List.countP_eq_zero]
        intro q hq hqk
        apply hnd.1
        have hqk2 : q.1 = k := by simpa using hqk
        exact List.mem_map.2 ⟨q, hq, hqk2.trans heq⟩
      rw [List.countP_cons_of_pos _ _ (by simp [heq.symm]), h0]
    · have hpk : ¬p.1 = k := by
        intro hp
        apply hnd.1
        rw [hp]
        exact hmem
      rw [List.countP_cons_of_neg _ _ (by simpa using hpk)]
      exact ih hnd.2 hmem

theorem stripeMapOK_spec {snapshots : List SequenceNumber} {sm : StripeMap K}
    (h : stripeMapOK snapshots sm = true) :
    sm.bounds = mkBoundaries snapshots ∧
    (∀ e ∈ sm.snapStripes, keysSorted e.2 = true ∧
      ∀ p ∈ e.2, p.1 = p.2.start_key ∧ resolveBoundary sm.bounds p.2.seq = some e.1) ∧
    (keysSorted sm.topStripe = true ∧
      ∀ p ∈ sm.topStripe, p.1 = p.2.start_key ∧ resolveBoundary sm.bounds p.2.seq = none) := by
  simp only [stripeMapOK, stripeOK, Bool.and_eq_true, List.all_eq_true,
    decide_eq_true_eq] at h
  exact ⟨h.1.1, h.1.2, h.2⟩

theorem stripeMapOK_intro {snapshots : List SequenceNumber} {sm : StripeMap K}
    (h1 : sm.bounds = mkBoundaries snapshots)
    (h2 : ∀ e ∈ sm.snapStripes, keysSorted e.2 = true ∧
      ∀ p ∈ e.2, p.1 = p.2.start_key ∧ resolveBoundary sm.bounds p.2.seq = some e.1)
    (h3 : keysSorted sm.topStripe = true)
    (h4 : ∀ p ∈ sm.topStripe, p.1 = p.2.start_key ∧
      resolveBoundary sm.bounds p.2.seq = none) :
    stripeMapOK snapshots sm = true := by
  simp only [stripeMapOK, stripeOK, Bool.and_eq_true, List.all_eq_true,
    decide_eq_true_eq]
  exact ⟨⟨h1, h2⟩, h3, h4⟩

theorem stripeMapOK_init (snapshots : List SequenceNumber) :
    stripeMapOK snapshots (initStripeMap K snapshots) = true := by
  simp only [stripeMapOK, stripeOK, initStripeMap, StripeMap.bounds, List.map_map,
    Bool.and_eq_true, List.all_eq_true, decide_eq_true_eq]
  refine ⟨⟨List.map_id' _, ?_⟩, by simp [keysSorted], by simp⟩
  intro e he
  obtain ⟨b, _, rfl⟩ := List.mem_map.1 he
  simp [keysSorted]

theorem wf_rep_stripeMapOK {a : RangeDelAggregator K} (h : a.wf = true)
    {sm : StripeMap K} (hrep : a.rep = some sm) :
    stripeMapOK a.snapshots sm = true := by
  rw [RangeDelAggregator.wf, hrep] at h
  simpa using h

theorem stripeMapOK_ensureInit {a : RangeDelAggregator K} (h : a.wf = true) :
    stripeMapOK a.snapshots a.ensureInit = true := by
  cases hrep : a.rep with
  | none =>
    simpa [RangeDelAggregator.ensureInit, hrep] using
      stripeMapOK_init (K := K) a.snapshots
  | some sm =>
    simpa [RangeDelAggregator.ensureInit, hrep] using wf_rep_stripeMapOK h hrep

theorem stripeMapOK_insert {snapshots : List SequenceNumber} {sm : StripeMap K}
    (h : stripeMapOK snapshots sm = true) (t : RangeTombstone K) :
    stripeMapOK snapshots
      (sm.updateStripe (resolveBoundary sm.bounds t.seq)
        (fun m => tombMapInsert m t)) = true := by
  obtain ⟨h1, h2, h3, h4⟩ := stripeMapOK_spec h
  cases hres : resolveBoundary sm.bounds t.seq with
  | none =>
    apply stripeMapOK_intro
    · rw [bounds_updateStripe]; exact h1
    · intro e he
      rw [bounds_updateStripe]
      exact h2 e he
    · rw [show (sm.updateStripe none (fun m => tombMapInsert m t)).topStripe =
          tombMapInsert sm.topStripe t from rfl, keysSorted_iff]
      exact pairwise_tombMapInsert (keysSorted_iff.1 h3)
    · intro p hp
      rw [show (sm.updateStripe none (fun m => tombMapInsert m t)).topStripe =
          tombMapInsert sm.topStripe t from rfl] at hp
      rw [bounds_updateStripe]
      rcases mem_of_mem_tombMapInsert hp with rfl | hp
      · exact ⟨rfl, hres⟩
      · exact h4 p hp
  | some s =>
    apply stripeMapOK_intro
    · rw [bounds_updateStripe]; exact h1
    · intro e' he'
      rw [show (sm.updateStripe (some s) (fun m => tombMapInsert m t)).snapStripes =
          sm.snapStripes.map (fun e => if e.1 = s then (e.1, tombMapInsert e.2 t) else e)
          from rfl] at he'
      obtain ⟨e, he, hee⟩ := List.mem_map.1 he'
      rw [bounds_updateStripe]
      by_cases hkey : e.1 = s
      · rw [← hee]
        simp only [if_pos hkey]
        constructor
        · rw [keysSorted_iff]
          exact pairwise_tombMapInsert (keysSorted_iff.1 (h2 e he).1)
        · intro p hp
          rcases mem_of_mem_tombMapInsert hp with rfl | hp
          · exact ⟨rfl, by rw [hres, hkey]⟩
          · exact (h2 e he).2 p hp
      · rw [← hee]
        simp only [if_neg hkey]
        exact h2 e he
    · rw [show (sm.updateStripe (some s) (fun m => tombMapInsert m t)).topStripe =
          sm.topStripe from rfl]
      exact h3
    · rw [show (sm.updateStripe (some s) (fun m => tombMapInsert m t)).topStripe =
          sm.topStripe from rfl]
      intro p hp
      rw [bounds_updateStripe]
      exact h4 p hp

theorem wf_addTombstone {a : RangeDelAggregator K} (h : a.wf = true)
    (t : RangeTombstone K) : (a.addTombstone t).wf = true := by
  have hok := stripeMapOK_ensureInit h
  simp only [RangeDelAggregator.addTombstone, RangeDelAggregator.wf]
  simpa using stripeMapOK_insert hok t

theorem wf_ofSnapshots (snapshots : List SequenceNumber) :
    (RangeDelAggregator.ofSnapshots K snapshots).wf = true := by
  simpa [RangeDelAggregator.ofSnapshots, RangeDelAggregator.wf] using
    stripeMapOK_init (K := K) snapshots

theorem wf_ofUpperBound (upper_bound : SequenceNumber) :
    (RangeDelAggregator.ofUpperBound K upper_bound).wf = true := rfl

theorem wf_addParsedTombstones {a : RangeDelAggregator K} (h : a.wf = true)
    (ts : List (RangeTombstone K)) : (a.addParsedTombstones ts).wf = true := by
  induction ts generalizing a with
  | nil => simpa [RangeDelAggregator.addParsedTombstones] using h
  | cons t rest ih =>
    simpa [RangeDelAggregator.addParsedTombstones] using
      ih (wf_addTombstone h t)

theorem snapKeys_nodup {snapshots : List SequenceNumber} {sm : StripeMap K}
    (h1 : sm.bounds = mkBoundaries snapshots) : (sm.snapStripes.map (·.1)).Nodup := by
  rw [show sm.snapStripes.map (·.1) = sm.bounds from rfl, h1]
  exact (mkBoundaries_sorted snapshots).imp (fun h => Nat.ne_of_lt h)

theorem mem_tombstones_iff {a : RangeDelAggregator K} {sm : StripeMap K}
    (hrep : a.rep = some sm) {t : RangeTombstone K} :
    t ∈ a.tombstones ↔ ∃ m ∈ sm.stripes, ∃ p ∈ m, p.2 = t := by
  simp [RangeDelAggregator.tombstones, hrep, List.mem_flatten, List.mem_map]

theorem mem_stripes_cases {sm : StripeMap K} {m : TombstoneMap K}
    (hm : m ∈ sm.stripes) : (∃ en ∈ sm.snapStripes, en.2 = m) ∨ m = sm.topStripe := by
  simp only [StripeMap.stripes, List.mem_append, List.mem_map,
    List.mem_singleton] at hm
  exact hm

/-- C1: for every point key `(user_key, seq)`, coverage evaluation returns true
iff the stripe containing `seq` holds a tombstone `(s, e, seq_T)` with
`s ≤ user_key < e` in comparator order and `seq_T` strictly greater than
`seq`; a tombstone lying in a different stripe never causes deletion even
when its interval and sequence would otherwise qualify. -/
theorem shouldDelete_iff_covered (a : RangeDelAggregator K) (h : a.wf = true)
    (user_key : K) (seq : SequenceNumber) :
    a.shouldDeleteParsed user_key seq = true ↔
      ∃ t ∈ a.tombstones,
        resolveBoundary a.bounds t.seq = resolveBoundary a.bounds seq ∧
        t.start_key ≤ user_key ∧ user_key < t.end_key ∧ seq < t.seq := by
  cases hrep : a.rep with
  | none =>
    simp [RangeDelAggregator.shouldDeleteParsed, RangeDelAggregator.tombstones, hrep]
  | some sm =>
    obtain ⟨h1, h2, h3, h4⟩ := stripeMapOK_spec (wf_rep_stripeMapOK h hrep)
    have hbounds : sm.bounds = a.bounds := h1
    have hnd : (sm.snapStripes.map (·.1)).Nodup := snapKeys_nodup h1
    rw [show a.shouldDeleteParsed user_key seq =
        (sm.getStripe (resolveBoundary sm.bounds seq)).any
          (fun e => decide (e.2.start_key ≤ user_key) &&
            decide (user_key < e.2.end_key) && decide (seq < e.2.seq)) from by
      simp [RangeDelAggregator.shouldDeleteParsed, hrep]]
    rw [List.any_eq_true]
    constructor
    · rintro ⟨e, he, hpred⟩
      have hp : e.2.start_key ≤ user_key ∧ user_key < e.2.end_key ∧ seq < e.2.seq := by
        simpa [Bool.and_eq_true, decide_eq_true_eq, and_assoc] using hpred
      cases hres : resolveBoundary sm.bounds seq with
      | none =>
        rw [hres] at he
        have hmem : e ∈ sm.topStripe := he
        refine ⟨e.2, ?_, ?_, hp.1, hp.2.1, hp.2.2⟩
        · rw [mem_tombstones_iff hrep]
          exact ⟨sm.topStripe, by simp [StripeMap.stripes], e, hmem, rfl⟩
        · rw [← hbounds, (h4 e hmem).2, hres]
      | some s =>
        rw [hres] at he
        cases hf : sm.snapStripes.find? (fun x => decide (x.1 = s)) with
        | none =>
          rw [StripeMap.getStripe, hf] at he
          simp at he
        | some en =>
          rw [StripeMap.getStripe, hf] at he
          simp only [Option.map_some', Option.getD_some] at he
          have hen : en ∈ sm.snapStripes := List.mem_of_find?_eq_some hf
          have hens : en.1 = s := by simpa using List.find?_some hf
          refine ⟨e.2, ?_, ?_, hp.1, hp.2.1, hp.2.2⟩
          · rw [mem_tombstones_iff hrep]
            refine ⟨en.2, ?_, e, he, rfl⟩
            simp only [StripeMap.stripes, List.mem_append, List.mem_map,
              List.mem_singleton]
            exact Or.inl ⟨en, hen, rfl⟩
          · rw [← hbounds, ((h2 en hen).2 e he).2, hens, hres]
    · rintro ⟨t, hmem, hsame, hcov1, hcov2, hcov3⟩
      rw [mem_tombstones_iff hrep] at hmem
      obtain ⟨m, hm, p, hpm, rfl⟩ := hmem
      rw [← hbounds] at hsame
      rcases mem_stripes_cases hm with ⟨en, hen, rfl⟩ | rfl
      · have hr := ((h2 en hen).2 p hpm).2
        have hres : resolveBoundary sm.bounds seq = some en.1 := hsame ▸ hr
        rw [hres]
        refine ⟨p, ?_, by simp [hcov1, hcov2, hcov3]⟩
        rw [StripeMap.getStripe, find?_key_eq_some_self hnd hen]
        simpa using hpm
      · have hr := (h4 p hpm).2
        have hres : resolveBoundary sm.bounds seq = none := hsame ▸ hr
        rw [hres]
        exact ⟨p, hpm, by simp [hcov1, hcov2, hcov3]⟩

/-- C4: with `bottommost_level = true`, `ShouldAddTombstones` returns false
when every ingested tombstone lies in the oldest stripe (the stripe with the
smallest upper bound) and true whenever some tombstone lies in a newer
stripe; with `bottommost_level = false` no stripe is excluded from
consideration. -/
theorem shouldAddTombstones_spec (a : RangeDelAggregator K) (h : a.wf = true) :
    (a.shouldAddTombstones true = true ↔
      ∃ t ∈ a.tombstones, resolveBoundary a.bounds t.seq ≠ a.oldestStripeId) ∧
    (a.shouldAddTombstones false = true ↔ a.tombstones ≠ []) := by
  cases hrep : a.rep with
  | none =>
    simp [RangeDelAggregator.shouldAddTombstones, RangeDelAggregator.tombstones, hrep]
  | some sm =>
    obtain ⟨h1, h2, h3, h4⟩ := stripeMapOK_spec (wf_rep_stripeMapOK h hrep)
    have hbounds : sm.bounds = a.bounds := h1
    constructor
    · rw [show a.shouldAddTombstones true =
          (sm.stripes.drop 1).any (fun m => !m.isEmpty) from by
        simp [RangeDelAggregator.shouldAddTombstones, hrep]]
      rw [List.any_eq_true]
      cases hsnap : sm.snapStripes with
      | nil =>
        have habnil : a.bounds = [] := by
          rw [← hbounds]
          simp [StripeMap.bounds, hsnap]
        constructor
        · rintro ⟨m, hm, _⟩
          rw [show sm.stripes = [sm.topStripe] from by
            simp [StripeMap.stripes, hsnap]] at hm
          simp at hm
        · rintro ⟨t, _, hne⟩
          exact absurd (by
            simp [habnil, resolveBoundary, RangeDelAggregator.oldestStripeId]) hne
      | cons e0 es =>
        have habc : a.bounds = e0.1 :: es.map (·.1) := by
          rw [← hbounds]
          simp [StripeMap.bounds, hsnap]
        have holdest : a.oldestStripeId = some e0.1 := by
          rw [RangeDelAggregator.oldestStripeId, habc]
        have hsorted : a.bounds.Pairwise (· < ·) := mkBoundaries_sorted _
        have hdrop : sm.stripes.drop 1 = es.map (·.2) ++ [sm.topStripe] := by
          simp [StripeMap.stripes, hsnap]
        rw [hdrop, holdest]
        constructor
        · rintro ⟨m, hm, hne⟩
          have hne2 : m ≠ [] := by simpa [List.isEmpty_eq_false] using hne
          obtain ⟨p, hp⟩ := List.exists_mem_of_ne_nil m hne2
          rcases List.mem_append.1 hm with hmes | hmtop
          · obtain ⟨en, hen, rfl⟩ := List.mem_map.1 hmes
            have henm : en ∈ sm.snapStripes := by
              rw [hsnap]
              exact List.mem_cons_of_mem _ hen
            have hres : resolveBoundary a.bounds p.2.seq = some en.1 := by
              rw [← hbounds]
              exact ((h2 en henm).2 p hp).2
            have hlt : e0.1 < en.1 := by
              have := (List.pairwise_cons.1 (habc ▸ hsorted)).1
              exact this en.1 (List.mem_map.2 ⟨en, hen, rfl⟩)
            refine ⟨p.2, ?_, ?_⟩
            · rw [mem_tombstones_iff hrep]
              refine ⟨en.2, ?_, p, hp, rfl⟩
              simp only [StripeMap.stripes, List.mem_append, List.mem_map,
                List.mem_singleton]
              exact Or.inl ⟨en, henm, rfl⟩
            · rw [hres]
              intro hcon
              have heq : e0.1 = en.1 := by simpa using hcon.symm
              exact absurd heq (Nat.ne_of_lt hlt)
          · have hmt : m = sm.topStripe := by simpa using hmtop
            subst hmt
            have hres : resolveBoundary a.bounds p.2.seq = none := by
              rw [← hbounds]
              exact (h4 p hp).2
            refine ⟨p.2, ?_, ?_⟩
            · rw [mem_tombstones_iff hrep]
              refine ⟨sm.topStripe, ?_, p, hp, rfl⟩
              simp [StripeMap.stripes]
            · rw [hres]
              simp
        · rintro ⟨t, hmem, hne⟩
          rw [mem_tombstones_iff hrep] at hmem
          obtain ⟨m, hm, p, hpm, rfl⟩ := hmem
          rcases mem_stripes_cases hm with ⟨en, hen, rfl⟩ | rfl
          · have hres : resolveBoundary a.bounds p.2.seq = some en.1 := by
              rw [← hbounds]
              exact ((h2 en hen).2 p hpm).2
            rcases List.mem_cons.1 (hsnap ▸ hen) with rfl | henes
            · exact absurd (by rw [hres]) hne
            · refine ⟨en.2, ?_, ?_⟩
              · exact List.mem_append_left _ (List.mem_map.2 ⟨en, henes, rfl⟩)
              · simpa [List.isEmpty_eq_false] using List.ne_nil_of_mem hpm
          · refine ⟨sm.topStripe, ?_, ?_⟩
            · exact List.mem_append_right _ (by simp)
            · simpa [List.isEmpty_eq_false] using List.ne_nil_of_mem hpm
    · rw [show a.shouldAddTombstones false = sm.stripes.any (fun m => !m.isEmpty) from by
        simp [RangeDelAggregator.shouldAddTombstones, hrep]]
      rw [List.any_eq_true]
      constructor
      · rintro ⟨m, hm, hne⟩
        have hne2 : m ≠ [] := by simpa [List.isEmpty_eq_false] using hne
        obtain ⟨p, hp⟩ := List.exists_mem_of_ne_nil m hne2
        apply List.ne_nil_of_mem (a := p.2)
        rw [mem_tombstones_iff hrep]
        exact ⟨m, hm, p, hp, rfl⟩
      · intro hne
        obtain ⟨t, ht⟩ := List.exists_mem_of_ne_nil _ hne
        rw [mem_tombstones_iff hrep] at ht
        obtain ⟨m, hm, p, hpm, rfl⟩ := ht
        exact ⟨m, hm, by simpa [List.isEmpty_eq_false] using List.ne_nil_of_mem hpm⟩

theorem getStripe_sorted {snapshots : List SequenceNumber} {sm : StripeMap K}
    (h : stripeMapOK snapshots sm = true) (b : Option SequenceNumber) :
    (sm.getStripe b).Pairwise (fun p q => p.1 < q.1) := by
  obtain ⟨h1, h2, h3, h4⟩ := stripeMapOK_spec h
  cases b with
  | none => exact keysSorted_iff.1 h3
  | some s =>
    rw [StripeMap.getStripe]
    cases hf : sm.snapStripes.find? (fun e => decide (e.1 = s)) with
    | none => simp
    | some en =>
      simp only [Option.map_some', Option.getD_some]
      exact keysSorted_iff.1 (h2 en (List.mem_of_find?_eq_some hf)).1

theorem resolvedStripe_addTombstone (a : RangeDelAggregator K) (h : a.wf = true)
    (t : RangeTombstone K) :
    (a.addTombstone t).resolvedStripe t.seq =
      tombMapInsert (a.resolvedStripe t.seq) t := by
  have hok := stripeMapOK_ensureInit h
  obtain ⟨h1, h2, h3, h4⟩ := stripeMapOK_spec hok
  have hnd : ((a.ensureInit).snapStripes.map (·.1)).Nodup := snapKeys_nodup h1
  have hens : (a.addTombstone t).ensureInit =
      (a.ensureInit).updateStripe (resolveBoundary (a.ensureInit).bounds t.seq)
        (fun m => tombMapInsert m t) := rfl
  rw [RangeDelAggregator.resolvedStripe, hens, bounds_updateStripe,
    RangeDelAggregator.resolvedStripe]
  cases hres : resolveBoundary (a.ensureInit).bounds t.seq with
  | none => rfl
  | some s =>
    obtain ⟨hsmem, _⟩ := resolveBoundary_some hres
    have hsmem2 : s ∈ (a.ensureInit).snapStripes.map (·.1) := hsmem
    obtain ⟨en, hen, henkey⟩ := List.mem_map.1 hsmem2
    exact getStripe_updateStripe_some _ _ hnd hen henkey

/-- C7: within a single stripe's index at most one tombstone entry exists per
distinct start key: after any well-formed ingestion history every stripe's
key list is duplicate-free, and inserting a tombstone whose start key exactly
equals an existing entry's start key in the same stripe does not create a
second entry — the stripe is unchanged and exactly one entry with that start
key remains. -/
theorem stripe_start_key_unique (a : RangeDelAggregator K) (h : a.wf = true)
    (t : RangeTombstone K) :
    (∀ m ∈ a.stripesOf, (m.map (·.1)).Nodup) ∧
    (t.start_key ∈ (a.resolvedStripe t.seq).map (·.1) →
      (a.addTombstone t).resolvedStripe t.seq = a.resolvedStripe t.seq ∧
      ((a.addTombstone t).resolvedStripe t.seq).countP
        (fun p => decide (p.1 = t.start_key)) = 1) := by
  constructor
  · intro m hm
    cases hrep : a.rep with
    | none =>
      simp only [RangeDelAggregator.stripesOf, hrep] at hm
      simp at hm
    | some sm =>
      simp only [RangeDelAggregator.stripesOf, hrep] at hm
      obtain ⟨h1, h2, h3, h4⟩ := stripeMapOK_spec (wf_rep_stripeMapOK h hrep)
      have hpw : m.Pairwise (fun p q => p.1 < q.1) := by
        rcases mem_stripes_cases hm with ⟨en, hen, rfl⟩ | rfl
        · exact keysSorted_iff.1 (h2 en hen).1
        · exact keysSorted_iff.1 h3
      exact (List.pairwise_map.2 hpw).imp (fun hlt => ne_of_lt hlt)
  · intro hmem
    have hsorted : (a.resolvedStripe t.seq).Pairwise (fun p q => p.1 < q.1) :=
      getStripe_sorted (stripeMapOK_ensureInit h) _
    have hunch : (a.addTombstone t).resolvedStripe t.seq = a.resolvedStripe t.seq := by
      rw [resolvedStripe_addTombstone a h t]
      exact tombMapInsert_of_mem_key hsorted hmem
    refine ⟨hunch, ?_⟩
    rw [hunch]
    exact countP_key_eq_one
      ((List.pairwise_map.2 hsorted).imp (fun hlt => ne_of_lt hlt)) hmem

/-- C8: an aggregator built with the single-upper-bound constructor starts
uninitialized and the snapshot-list constructor is initialized from
construction; ingesting zero tombstones changes nothing, the transition
uninitialized → initialized is triggered by the first ingested tombstone —
ingesting into the fresh single-bound aggregator initializes it, with the
stripe boundaries derived from the stored bound — and after any ingestion the
aggregator is initialized; once initialized, further ingestion neither
reverts initialization nor rebuilds the stripe boundaries. -/
theorem lazy_init_once (upper_bound : SequenceNumber)
    (snapshots : List SequenceNumber) (a : RangeDelAggregator K)
    (t : RangeTombstone K) :
    (RangeDelAggregator.ofUpperBound K upper_bound).rep = none ∧
    ((RangeDelAggregator.ofSnapshots K snapshots).rep).isSome = true ∧
    a.addParsedTombstones [] = a ∧
    ((a.addTombstone t).rep).isSome = true ∧
    (((RangeDelAggregator.ofUpperBound K upper_bound).addTombstone t).rep).isSome =
      true ∧
    ((RangeDelAggregator.ofUpperBound K upper_bound).addTombstone t).rep.map
        StripeMap.bounds = some (mkBoundaries [upper_bound]) ∧
    (a.rep.isSome = true →
      (a.addTombstone t).rep.map StripeMap.bounds = a.rep.map StripeMap.bounds) := by
  refine ⟨rfl, rfl, rfl, rfl, rfl, ?_, ?_⟩
  · rw [show ((RangeDelAggregator.ofUpperBound K upper_bound).addTombstone t).rep =
        some ((initStripeMap K [upper_bound]).updateStripe
          (resolveBoundary (initStripeMap K [upper_bound]).bounds t.seq)
          (fun m => tombMapInsert m t)) from rfl]
    simp only [Option.map_some']
    congr 1
    rw [bounds_updateStripe]
    simp only [initStripeMap, StripeMap.bounds, List.map_map]
    exact List.map_id' _
  · intro hsome
    obtain ⟨sm, hrep⟩ := Option.isSome_iff_exists.1 hsome
    rw [show (a.addTombstone t).rep = some ((a.ensureInit).updateStripe
        (resolveBoundary (a.ensureInit).bounds t.seq)
        (fun m => tombMapInsert m t)) from rfl]
    rw [hrep]
    simp only [Option.map_some']
    congr 1
    rw [bounds_updateStripe]
    simp [RangeDelAggregator.ensureInit, hrep]

theorem isEmpty_addTombstone (a : RangeDelAggregator K) (t : RangeTombstone K) :
    (a.addTombstone t).isEmpty = false := by
  rw [show (a.addTombstone t).isEmpty = ((a.ensureInit).updateStripe
      (resolveBoundary (a.ensureInit).bounds t.seq)
      (fun m => tombMapInsert m t)).stripes.all (fun m => m.isEmpty) from rfl]
  rw [List.all_eq_false]
  cases hres : resolveBoundary (a.ensureInit).bounds t.seq with
  | none =>
    refine ⟨tombMapInsert (a.ensureInit).topStripe t, ?_, ?_⟩
    · exact List.mem_append_right _ (by simp [StripeMap.updateStripe])
    · simp [List.isEmpty_iff, tombMapInsert_ne_nil]
  | some s =>
    obtain ⟨hsmem, _⟩ := resolveBoundary_some hres
    have hsmem2 : s ∈ (a.ensureInit).snapStripes.map (·.1) := hsmem
    obtain ⟨en, hen, henkey⟩ := List.mem_map.1 hsmem2
    refine ⟨tombMapInsert en.2 t, ?_, ?_⟩
    · apply List.mem_append_left
      simp only [StripeMap.updateStripe, List.map_map]
      apply List.mem_map.2
      refine ⟨en, hen, ?_⟩
      simp [henkey]
    · simp [List.isEmpty_iff, tombMapInsert_ne_nil]

theorem isEmpty_addParsed_cons (ts : List (RangeTombstone K)) :
    ∀ (a : RangeDelAggregator K) (t : RangeTombstone K),
      ((a.addTombstone t).addParsedTombstones ts).isEmpty = false := by
  induction ts with
  | nil =>
    intro a t
    simpa [RangeDelAggregator.addParsedTombstones] using isEmpty_addTombstone a t
  | cons r rs ih =>
    intro a t
    rw [show (a.addTombstone t).addParsedTombstones (r :: rs) =
        ((a.addTombstone t).addTombstone r).addParsedTombstones rs from rfl]
    exact ih _ r

/-- C9: `IsEmpty` is true immediately after construction (both constructors)
and after an ingestion that added zero tombstones, false once at least one
tombstone was ingested into some stripe, and in general true iff the
aggregator was never initialized or every stripe's index is empty. -/
theorem isEmpty_spec (snapshots : List SequenceNumber)
    (upper_bound : SequenceNumber) (a : RangeDelAggregator K)
    (ts : List (RangeTombstone K)) (hts : ts ≠ []) :
    (RangeDelAggregator.ofSnapshots K snapshots).isEmpty = true ∧
    (RangeDelAggregator.ofUpperBound K upper_bound).isEmpty = true ∧
    (a.addParsedTombstones []).isEmpty = a.isEmpty ∧
    (a.addParsedTombstones ts).isEmpty = false ∧
    (a.isEmpty = true ↔ a.rep = none ∨ ∀ m ∈ a.stripesOf, m = []) := by
  refine ⟨?_, rfl, rfl, ?_, ?_⟩
  · simp only [RangeDelAggregator.ofSnapshots, RangeDelAggregator.isEmpty,
      initStripeMap, StripeMap.stripes, List.all_eq_true, List.map_map]
    intro m hm
    rcases List.mem_append.1 hm with hml | hmr
    · obtain ⟨b, _, rfl⟩ := List.mem_map.1 hml
      simp
    · simp only [List.mem_singleton] at hmr
      simp [hmr]
  · cases ts with
    | nil => exact absurd rfl hts
    | cons t rest =>
      rw [show a.addParsedTombstones (t :: rest) =
          (a.addTombstone t).addParsedTombstones rest from rfl]
      exact isEmpty_addParsed_cons rest a t
  · cases hrep : a.rep with
    | none =>
      simp [RangeDelAggregator.isEmpty, RangeDelAggregator.stripesOf, hrep]
    | some sm =>
      simp [RangeDelAggregator.isEmpty, RangeDelAggregator.stripesOf, hrep,
        List.all_eq_true, List.isEmpty_iff]

/-- C5: `AddTombstones` consumes its input records in order; at the first
record whose combined key fails to decode it stops immediately and returns
Corruption, keeping every tombstone ingested before the failing record (no
rollback); if every record decodes it returns success having ingested them
all. -/
theorem addTombstones_spec (a : RangeDelAggregator ByteKey)
    (input : List RawRecord) :
    a.addTombstones input =
      ((if input.all (fun r => (decodeRecord r).isSome) then Status.ok
        else Status.corruption),
        a.addParsedTombstones
          ((input.takeWhile (fun r => (decodeRecord r).isSome)).filterMap
            decodeRecord)) := by
  induction input generalizing a with
  | nil =>
    simp [RangeDelAggregator.addTombstones, RangeDelAggregator.addParsedTombstones]
  | cons r rest ih =>
    cases hr : decodeRecord r with
    | none =>
      simp [RangeDelAggregator.addTombstones, hr, List.all_cons,
        List.takeWhile_cons, RangeDelAggregator.addParsedTombstones]
    | some t =>
      rw [show a.addTombstones (r :: rest) = (match decodeRecord r with
          | none => (Status.corruption, a)
          | some t => (a.addTombstone t).addTombstones rest) from rfl, hr]
      rw [show (match some t with
          | none => (Status.corruption, a)
          | some t => (a.addTombstone t).addTombstones rest) =
          (a.addTombstone t).addTombstones rest from rfl]
      rw [ih]
      simp [List.all_cons, hr, List.takeWhile_cons, List.filterMap_cons,
        RangeDelAggregator.addParsedTombstones]

/-- C6: the encoded-key coverage query fails with the MalformedKey condition
exactly when the combined key cannot be decoded into `(user_key, sequence)`;
on a key that decodes successfully it returns a boolean and raises no
error. -/
theorem shouldDelete_error_spec (a : RangeDelAggregator ByteKey)
    (internal_key : ByteKey) :
    (a.shouldDelete internal_key = Except.error CoverageError.malformedKey ↔
      parseInternalKey internal_key = none) ∧
    (∀ user_key seq, parseInternalKey internal_key = some (user_key, seq) →
      ∃ b : Bool, a.shouldDelete internal_key = Except.ok b) := by
  by_cases hlen : internal_key.length < 8
  · constructor
    · simp [RangeDelAggregator.shouldDelete, parseInternalKey, hlen]
    · intro uk seq hp
      rw [parseInternalKey, if_pos hlen] at hp
      exact absurd hp (by simp)
  · constructor
    · constructor
      · intro hcon
        rw [RangeDelAggregator.shouldDelete, if_neg hlen] at hcon
        exact absurd hcon (by simp)
      · intro hcon
        rw [parseInternalKey, if_neg hlen] at hcon
        exact absurd hcon (by simp)
    · intro uk seq hp
      cases hx : a.shouldDelete internal_key with
      | error e =>
        rw [RangeDelAggregator.shouldDelete, if_neg hlen] at hx
        exact absurd hx (by simp)
      | ok b => exact ⟨b, rfl⟩

/-- C10: on every encoded internal key whose decoding succeeds, the
encoded-key overload returns the same boolean as the parsed-key overload
applied to the decoded key, so the two coverage entry points agree on all
well-formed inputs against the same aggregator state. -/
theorem shouldDelete_overloads_agree (a : RangeDelAggregator ByteKey)
    (internal_key user_key : ByteKey) (seq : SequenceNumber)
    (h : parseInternalKey internal_key = some (user_key, seq)) :
    a.shouldDelete internal_key = Except.ok (a.shouldDeleteParsed user_key seq) := by
  by_cases hlen : internal_key.length < 8
  · rw [parseInternalKey, if_pos hlen] at h
    exact absurd h (by simp)
  · rw [parseInternalKey, if_neg hlen] at h
    simp only [Option.some.injEq, Prod.mk.injEq] at h
    simp only [RangeDelAggregator.shouldDelete, if_neg hlen]
    rw [h.1, h.2]
    cases hrep : a.rep with
    | none => simp [RangeDelAggregator.shouldDeleteParsed, hrep]
    | some sm => simp [RangeDelAggregator.shouldDeleteParsed, hrep]

/-- C3: a tombstone is emitted iff its interval intersects the target range,
the emitted interval is exactly the intersection of the tombstone's interval
and the target range, and the file bounds widen to include the emitted
endpoints — the smallest-bound candidate being the tombstone's original
start key when the extend-before-minimum flag is set, otherwise the greater
of the file's current smallest and the emitted start. -/
theorem addToBuilder_clips (lower_bound upper_bound : Option K)
    (extend_before_min_key : Bool) (meta : FileMetaData K) (t : RangeTombstone K)
    (hproper : t.start_key < t.end_key)
    (htarget : ∀ l ∈ lower_bound, ∀ u ∈ upper_bound, l < u) :
    ((addTombstoneToBuilder lower_bound upper_bound extend_before_min_key meta t).1 ≠
        none ↔
      ∃ x, t.start_key ≤ x ∧ x < t.end_key ∧ inTarget lower_bound upper_bound x) ∧
    (∀ cs ce,
      (addTombstoneToBuilder lower_bound upper_bound extend_before_min_key meta t).1 =
        some (cs, ce) →
      (∀ x, cs ≤ x ∧ x < ce ↔
        t.start_key ≤ x ∧ x < t.end_key ∧ inTarget lower_bound upper_bound x) ∧
      (addTombstoneToBuilder lower_bound upper_bound extend_before_min_key meta
          t).2.largest = some (widenHigh meta.largest ce) ∧
      (addTombstoneToBuilder lower_bound upper_bound extend_before_min_key meta
          t).2.smallest = some (widenLow meta.smallest
            (if extend_before_min_key then t.start_key
             else widenHigh meta.smallest cs))) := by
  have hcond : overlapsTarget lower_bound upper_bound t = true ↔
      ((∀ u ∈ upper_bound, t.start_key < u) ∧
        (∀ l ∈ lower_bound, l < t.end_key)) := by
    cases upper_bound <;> cases lower_bound <;> simp [overlapsTarget]
  by_cases hov : overlapsTarget lower_bound upper_bound t = true
  · have hemit : addTombstoneToBuilder lower_bound upper_bound extend_before_min_key
        meta t =
        (some (clipLow lower_bound t.start_key, clipHigh upper_bound t.end_key),
          { smallest := some (widenLow meta.smallest
              (if extend_before_min_key then t.start_key
               else widenHigh meta.smallest (clipLow lower_bound t.start_key))),
            largest := some (widenHigh meta.largest
              (clipHigh upper_bound t.end_key)) }) := by
      rw [addTombstoneToBuilder, if_pos hov]
    obtain ⟨hub, hlb⟩ := hcond.1 hov
    have hmemiff : ∀ x : K,
        (clipLow lower_bound t.start_key ≤ x ∧ x < clipHigh upper_bound t.end_key) ↔
        (t.start_key ≤ x ∧ x < t.end_key ∧ inTarget lower_bound upper_bound x) := by
      intro x
      cases lower_bound with
      | none =>
        cases upper_bound with
        | none => simp [clipLow, clipHigh, inTarget]
        | some u =>
          simp [clipLow, clipHigh, inTarget, lt_min_iff]
          tauto
      | some l =>
        cases upper_bound with
        | none =>
          simp [clipLow, clipHigh, inTarget, max_le_iff]
          tauto
        | some u =>
          simp [clipLow, clipHigh, inTarget, max_le_iff, lt_min_iff]
          tauto
    have hcs : t.start_key ≤ clipLow lower_bound t.start_key ∧
        clipLow lower_bound t.start_key < t.end_key ∧
        inTarget lower_bound upper_bound (clipLow lower_bound t.start_key) := by
      cases lower_bound with
      | none =>
        refine ⟨le_refl _, hproper, ?_, ?_⟩
        · intro l hl
          simp at hl
        · intro u hu
          exact hub u hu
      | some l =>
        refine ⟨le_max_right _ _, max_lt (hlb l rfl) hproper, ?_, ?_⟩
        · intro l' hl'
          have hll : l = l' := by simpa using hl'
          rw [← hll]
          exact le_max_left _ _
        · intro u hu
          exact max_lt (htarget l rfl u hu) (hub u hu)
    constructor
    · rw [hemit]
      simp only [ne_eq]
      constructor
      · intro _
        exact ⟨clipLow lower_bound t.start_key, hcs.1, hcs.2.1, hcs.2.2⟩
      · intro _
        simp
    · intro cs ce hcse
      rw [hemit] at hcse
      simp only [Option.some.injEq, Prod.mk.injEq] at hcse
      obtain ⟨rfl, rfl⟩ : clipLow lower_bound t.start_key = cs ∧
          clipHigh upper_bound t.end_key = ce := hcse
      refine ⟨hmemiff, ?_, ?_⟩
      · rw [hemit]
      · rw [hemit]
  · have hneg : addTombstoneToBuilder lower_bound upper_bound extend_before_min_key
        meta t = (none, meta) := by
      rw [addTombstoneToBuilder, if_neg hov]
    constructor
    · rw [hneg]
      constructor
      · intro hcon
        exact absurd rfl hcon
      · rintro ⟨x, hx1, hx2, hxt⟩
        exfalso
        apply hov
        rw [hcond]
        simp only [inTarget] at hxt
        constructor
        · intro u hu
          exact lt_of_le_of_lt hx1 (hxt.2 u hu)
        · intro l hl
          exact lt_of_le_of_lt (hxt.1 l hl) hx2
    · intro cs ce hcse
      rw [hneg] at hcse
      exact absurd hcse (by simp)

/-- Witness for C1: the coverage-evaluation characterization applied to a
concrete aggregator over snapshots `[100, 200]` holding tombstones in two
stripes, queried at the point key `(2, 30)`. -/
theorem shouldDelete_iff_covered_witness :
    ((RangeDelAggregator.ofSnapshots Nat [100, 200]).addParsedTombstones
        [⟨1, 5, 50⟩, ⟨1, 5, 180⟩]).wf = true ∧
    (((RangeDelAggregator.ofSnapshots Nat [100, 200]).addParsedTombstones
        [⟨1, 5, 50⟩, ⟨1, 5, 180⟩]).shouldDeleteParsed 2 30 = true ↔
      ∃ t ∈ ((RangeDelAggregator.ofSnapshots Nat [100, 200]).addParsedTombstones
          [⟨1, 5, 50⟩, ⟨1, 5, 180⟩]).tombstones,
        resolveBoundary ((RangeDelAggregator.ofSnapshots Nat [100, 200]).addParsedTombstones
            [⟨1, 5, 50⟩, ⟨1, 5, 180⟩]).bounds t.seq =
          resolveBoundary ((RangeDelAggregator.ofSnapshots Nat [100, 200]).addParsedTombstones
            [⟨1, 5, 50⟩, ⟨1, 5, 180⟩]).bounds 30 ∧
        t.start_key ≤ 2 ∧ 2 < t.end_key ∧ 30 < t.seq) :=
  ⟨by rfl,
    shouldDelete_iff_covered
      ((RangeDelAggregator.ofSnapshots Nat [100, 200]).addParsedTombstones
        [⟨1, 5, 50⟩, ⟨1, 5, 180⟩]) (by rfl) 2 30⟩

/-- Witness for C3: the emission characterization applied to tombstone
`[10, 50)` against target range `[20, 30)` with the extend-before-minimum
flag unset and unset file bounds. -/
theorem addToBuilder_clips_witness :
    ((10 : Nat) < 50 ∧ ∀ l ∈ (some 20 : Option Nat), ∀ u ∈ (some 30 : Option Nat), l < u) ∧
    (((addTombstoneToBuilder (some 20) (some 30) false ⟨none, none⟩
        (⟨10, 50, 7⟩ : RangeTombstone Nat)).1 ≠ none ↔
      ∃ x, (⟨10, 50, 7⟩ : RangeTombstone Nat).start_key ≤ x ∧
        x < (⟨10, 50, 7⟩ : RangeTombstone Nat).end_key ∧
        inTarget (some 20) (some 30) x) ∧
    (∀ cs ce,
      (addTombstoneToBuilder (some 20) (some 30) false ⟨none, none⟩
        (⟨10, 50, 7⟩ : RangeTombstone Nat)).1 = some (cs, ce) →
      (∀ x, cs ≤ x ∧ x < ce ↔
        (⟨10, 50, 7⟩ : RangeTombstone Nat).start_key ≤ x ∧
        x < (⟨10, 50, 7⟩ : RangeTombstone Nat).end_key ∧
        inTarget (some 20) (some 30) x) ∧
      (addTombstoneToBuilder (some 20) (some 30) false ⟨none, none⟩
        (⟨10, 50, 7⟩ : RangeTombstone Nat)).2.largest =
          some (widenHigh (none : Option Nat) ce) ∧
      (addTombstoneToBuilder (some 20) (some 30) false ⟨none, none⟩
        (⟨10, 50, 7⟩ : RangeTombstone Nat)).2.smallest =
          some (widenLow (none : Option Nat)
            (if false then (⟨10, 50, 7⟩ : RangeTombstone Nat).start_key
             else widenHigh (none : Option Nat) cs)))) :=
  ⟨⟨by decide, by decide⟩,
    addToBuilder_clips (some 20) (some 30) false ⟨none, none⟩
      (⟨10, 50, 7⟩ : RangeTombstone Nat) (by decide) (by decide)⟩

/-- Witness for C4: the emission-candidate predicate applied to a concrete
aggregator over snapshots `[100, 200]` with a tombstone in the oldest stripe
and one in a newer stripe. -/
theorem shouldAddTombstones_spec_witness :
    ((RangeDelAggregator.ofSnapshots Nat [100, 200]).addParsedTombstones
        [⟨1, 5, 50⟩, ⟨6, 9, 180⟩]).wf = true ∧
    ((((RangeDelAggregator.ofSnapshots Nat [100, 200]).addParsedTombstones
        [⟨1, 5, 50⟩, ⟨6, 9, 180⟩]).shouldAddTombstones true = true ↔
      ∃ t ∈ ((RangeDelAggregator.ofSnapshots Nat [100, 200]).addParsedTombstones
          [⟨1, 5, 50⟩, ⟨6, 9, 180⟩]).tombstones,
        resolveBoundary ((RangeDelAggregator.ofSnapshots Nat [100, 200]).addParsedTombstones
            [⟨1, 5, 50⟩, ⟨6, 9, 180⟩]).bounds t.seq ≠
          ((RangeDelAggregator.ofSnapshots Nat [100, 200]).addParsedTombstones
            [⟨1, 5, 50⟩, ⟨6, 9, 180⟩]).oldestStripeId) ∧
    (((RangeDelAggregator.ofSnapshots Nat [100, 200]).addParsedTombstones
        [⟨1, 5, 50⟩, ⟨6, 9, 180⟩]).shouldAddTombstones false = true ↔
      ((RangeDelAggregator.ofSnapshots Nat [100, 200]).addParsedTombstones
        [⟨1, 5, 50⟩, ⟨6, 9, 180⟩]).tombstones ≠ [])) :=
  ⟨by rfl,
    shouldAddTombstones_spec
      ((RangeDelAggregator.ofSnapshots Nat [100, 200]).addParsedTombstones
        [⟨1, 5, 50⟩, ⟨6, 9, 180⟩]) (by rfl)⟩

/-- Witness for C7: the per-stripe uniqueness invariant applied to a concrete
aggregator holding a tombstone with start key `1`, with a colliding insertion
of another tombstone starting at `1` in the same stripe. -/
theorem stripe_start_key_unique_witness :
    ((RangeDelAggregator.ofSnapshots Nat [100]).addParsedTombstones
        [⟨1, 5, 50⟩]).wf = true ∧
    ((∀ m ∈ ((RangeDelAggregator.ofSnapshots Nat [100]).addParsedTombstones
        [⟨1, 5, 50⟩]).stripesOf, (m.map (·.1)).Nodup) ∧
    ((⟨1, 9, 60⟩ : RangeTombstone Nat).start_key ∈
        (((RangeDelAggregator.ofSnapshots Nat [100]).addParsedTombstones
          [⟨1, 5, 50⟩]).resolvedStripe (⟨1, 9, 60⟩ : RangeTombstone Nat).seq).map (·.1) →
      (((RangeDelAggregator.ofSnapshots Nat [100]).addParsedTombstones
          [⟨1, 5, 50⟩]).addTombstone ⟨1, 9, 60⟩).resolvedStripe
            (⟨1, 9, 60⟩ : RangeTombstone Nat).seq =
        ((RangeDelAggregator.ofSnapshots Nat [100]).addParsedTombstones
          [⟨1, 5, 50⟩]).resolvedStripe (⟨1, 9, 60⟩ : RangeTombstone Nat).seq ∧
      ((((RangeDelAggregator.ofSnapshots Nat [100]).addParsedTombstones
          [⟨1, 5, 50⟩]).addTombstone ⟨1, 9, 60⟩).resolvedStripe
            (⟨1, 9, 60⟩ : RangeTombstone Nat).seq).countP
          (fun p => decide (p.1 = (⟨1, 9, 60⟩ : RangeTombstone Nat).start_key)) = 1)) :=
  ⟨by rfl,
    stripe_start_key_unique
      ((RangeDelAggregator.ofSnapshots Nat [100]).addParsedTombstones [⟨1, 5, 50⟩])
      (by rfl) ⟨1, 9, 60⟩⟩

/-- Witness for C8: the initialization life cycle applied to concrete
constructions, including the first ingestion into the fresh single-bound
aggregator (the uninitialized → initialized transition) and the
boundary-preservation conjunct discharged on an initialized aggregator. -/
theorem lazy_init_once_witness :
    ((RangeDelAggregator.ofUpperBound Nat 9).rep = none ∧
    ((RangeDelAggregator.ofSnapshots Nat [1, 2]).rep).isSome = true ∧
    (RangeDelAggregator.ofSnapshots Nat [7]).addParsedTombstones [] =
      RangeDelAggregator.ofSnapshots Nat [7] ∧
    (((RangeDelAggregator.ofSnapshots Nat [7]).addTombstone ⟨2, 3, 5⟩).rep).isSome =
      true ∧
    (((RangeDelAggregator.ofUpperBound Nat 9).addTombstone ⟨2, 3, 5⟩).rep).isSome =
      true ∧
    ((RangeDelAggregator.ofUpperBound Nat 9).addTombstone ⟨2, 3, 5⟩).rep.map
        StripeMap.bounds = some (mkBoundaries [9]) ∧
    ((RangeDelAggregator.ofSnapshots Nat [7]).rep.isSome = true →
      ((RangeDelAggregator.ofSnapshots Nat [7]).addTombstone ⟨2, 3, 5⟩).rep.map
          StripeMap.bounds =
        (RangeDelAggregator.ofSnapshots Nat [7]).rep.map StripeMap.bounds)) ∧
    ((RangeDelAggregator.ofSnapshots Nat [7]).addTombstone ⟨2, 3, 5⟩).rep.map
        StripeMap.bounds =
      (RangeDelAggregator.ofSnapshots Nat [7]).rep.map StripeMap.bounds :=
  ⟨lazy_init_once 9 [1, 2] (RangeDelAggregator.ofSnapshots Nat [7]) ⟨2, 3, 5⟩,
    (lazy_init_once 9 [1, 2] (RangeDelAggregator.ofSnapshots Nat [7])
      ⟨2, 3, 5⟩).2.2.2.2.2.2 (by rfl)⟩

/-- Witness for C9: the emptiness predicate applied to concrete constructions
and a concrete nonempty ingestion into a lazily initialized aggregator. -/
theorem isEmpty_spec_witness :
    ([(⟨1, 2, 3⟩ : RangeTombstone Nat)] ≠ []) ∧
    ((RangeDelAggregator.ofSnapshots Nat [4]).isEmpty = true ∧
    (RangeDelAggregator.ofUpperBound Nat 6).isEmpty = true ∧
    ((RangeDelAggregator.ofUpperBound Nat 50).addParsedTombstones []).isEmpty =
      (RangeDelAggregator.ofUpperBound Nat 50).isEmpty ∧
    ((RangeDelAggregator.ofUpperBound Nat 50).addParsedTombstones
      [⟨1, 2, 3⟩]).isEmpty = false ∧
    ((RangeDelAggregator.ofUpperBound Nat 50).isEmpty = true ↔
      (RangeDelAggregator.ofUpperBound Nat 50).rep = none ∨
      ∀ m ∈ (RangeDelAggregator.ofUpperBound Nat 50).stripesOf, m = [])) :=
  ⟨by simp,
    isEmpty_spec [4] 6 (RangeDelAggregator.ofUpperBound Nat 50) [⟨1, 2, 3⟩] (by simp)⟩

/-- Witness for C6: the decode-error characterization applied to the malformed
key `[1, 2]` together with a successfully decoded key exercising the no-error
branch. -/
theorem shouldDelete_error_spec_witness :
    (((RangeDelAggregator.ofUpperBound ByteKey 100).shouldDelete [1, 2] =
        Except.error CoverageError.malformedKey ↔ parseInternalKey [1, 2] = none) ∧
      (∀ user_key seq, parseInternalKey [1, 2] = some (user_key, seq) →
        ∃ b : Bool, (RangeDelAggregator.ofUpperBound ByteKey 100).shouldDelete [1, 2] =
          Except.ok b)) ∧
    (parseInternalKey [9, 1, 0, 0, 0, 0, 0, 0, 0] = some ([9], 1) ∧
      ∃ b : Bool, (RangeDelAggregator.ofUpperBound ByteKey 100).shouldDelete
        [9, 1, 0, 0, 0, 0, 0, 0, 0] = Except.ok b) :=
  ⟨shouldDelete_error_spec (RangeDelAggregator.ofUpperBound ByteKey 100) [1, 2],
    by rfl,
    (shouldDelete_error_spec (RangeDelAggregator.ofUpperBound ByteKey 100)
      [9, 1, 0, 0, 0, 0, 0, 0, 0]).2 [9] 1 (by rfl)⟩

/-- Witness for C10: agreement of the two coverage entry points on the
concrete well-formed encoded key `[9, 1, 0, 0, 0, 0, 0, 0, 0]`. -/
theorem shouldDelete_overloads_agree_witness :
    parseInternalKey [9, 1, 0, 0, 0, 0, 0, 0, 0] = some ([9], 1) ∧
    (RangeDelAggregator.ofUpperBound ByteKey 100).shouldDelete
        [9, 1, 0, 0, 0, 0, 0, 0, 0] =
      Except.ok ((RangeDelAggregator.ofUpperBound ByteKey 100).shouldDeleteParsed [9] 1) :=
  ⟨by rfl,
    shouldDelete_overloads_agree (RangeDelAggregator.ofUpperBound ByteKey 100)
      [9, 1, 0, 0, 0, 0, 0, 0, 0] [9] 1 (by rfl)⟩

end RangeDel

